import Mathlib

/-!
Verification development for the eth-notifier slot processing core
(`lighthouse-api.js`, the main loop of `ethNotifier.js`, and `cache.js`).

JavaScript strings are modelled as `List Char`, byte buffers as `List Nat`
(each element < 256), JS numbers holding integers as `Nat`/`Int`, and the
one place where the code performs non-integral arithmetic (withdrawal
amounts, divided by 1e9) as exact rationals `ℚ`; at every concrete input
appearing in a theorem below the IEEE double computation performed by the
code is exact, so the rational model is faithful there.
-/

namespace EthNotifier

/-! ### Hex parsing (Buffer.from(hex, 'hex') and the 0x prefix strip) -/

/-- One hex digit, as JS `Buffer.from(..., 'hex')` accepts it. -/
def hexDigit? (c : Char) : Option Nat :=
  if 48 ≤ c.toNat ∧ c.toNat ≤ 57 then some (c.toNat - 48)
  else if 97 ≤ c.toNat ∧ c.toNat ≤ 102 then some (c.toNat - 87)
  else if 65 ≤ c.toNat ∧ c.toNat ≤ 70 then some (c.toNat - 55)
  else none

/-- `Buffer.from(hex, 'hex')`: consume hex-digit pairs, stopping at the first
invalid or incomplete pair. -/
def hexToBytes : List Char → List Nat
  | c1 :: c2 :: rest =>
    match hexDigit? c1, hexDigit? c2 with
    | some hi, some lo => (16 * hi + lo) :: hexToBytes rest
    | _, _ => []
  | _ => []

/-- `hexString.startsWith('0x') ? hexString.slice(2) : hexString`. -/
def strip0x : List Char → List Char
  | '0' :: 'x' :: rest => rest
  | l => l

theorem hexDigit?_lt (c : Char) (v : Nat) (h : hexDigit? c = some v) : v < 16 := by
  unfold hexDigit? at h
  split at h
  · injection h with h; omega
  · split at h
    · injection h with h; omega
    · split at h
      · injection h with h; omega
      · exact absurd h (by simp)

theorem hexToBytes_lt (l : List Char) : ∀ b ∈ hexToBytes l, b < 256 := by
  generalize hn : l.length = n
  induction n using Nat.strong_induction_on generalizing l with
  | _ n ih =>
    match l with
    | [] => simp [hexToBytes]
    | [c] => simp [hexToBytes]
    | c1 :: c2 :: rest =>
      intro b hb
      simp only [hexToBytes] at hb
      cases h1 : hexDigit? c1 with
      | none => rw [h1] at hb; simp at hb
      | some hi =>
        cases h2 : hexDigit? c2 with
        | none => rw [h1, h2] at hb; simp at hb
        | some lo =>
          rw [h1, h2] at hb
          rcases List.mem_cons.1 hb with rfl | hb
          · have := hexDigit?_lt c1 hi h1
            have := hexDigit?_lt c2 lo h2
            omega
          · exact ih rest.length (by simp at hn; omega) rest rfl b hb

/-! ### Bit expansion and the bitlist delimiter -/

/-- Expand bytes to bits, LSB first within each byte:
`for (const byte of bytes) for (let i = 0; i < 8; i++) bits.push((byte >> i) & 1)`. -/
def bytesToBits (bytes : List Nat) : List Nat :=
  bytes.flatMap (fun b => (List.range 8).map (fun i => b / 2 ^ i % 2))

/-- Index of the highest nonzero entry (the SSZ bitlist delimiter):
`let p = bits.length - 1; while (p >= 0 && bits[p] === 0) p--;`,
`none` standing for the loop running off the left end (`p = -1`). -/
def lastOnePos : List Nat → Option Nat
  | [] => none
  | b :: bs =>
    match lastOnePos bs with
    | some j => some (j + 1)
    | none => if b = 0 then none else some 0

/-- The bit sequence of an aggregation-bits hex string. -/
def aggBitsOf (h : List Char) : List Nat := bytesToBits (hexToBytes (strip0x h))

theorem bytesToBits_length (bytes : List Nat) :
    (bytesToBits bytes).length = 8 * bytes.length := by
  induction bytes with
  | nil => simp [bytesToBits]
  | cons b bs ih =>
    simp only [bytesToBits, List.flatMap_cons] at *
    simp [ih]; ring

theorem bytesToBits_getD (bytes : List Nat) (p : Nat) :
    (bytesToBits bytes).getD p 0 = (bytes.getD (p / 8) 0) / 2 ^ (p % 8) % 2 := by
  induction bytes generalizing p with
  | nil => simp [bytesToBits]
  | cons b bs ih =>
    have hlen : ((List.range 8).map (fun i => b / 2 ^ i % 2)).length = 8 := by simp
    simp only [bytesToBits, List.flatMap_cons]
    rcases Nat.lt_or_ge p 8 with hp | hp
    · rw [List.getD_append _ _ _ _ (by omega)]
      have h0 : p / 8 = 0 := Nat.div_eq_of_lt hp
      have h1 : p % 8 = p := Nat.mod_eq_of_lt hp
      rw [h0, h1]
      simp [List.getD_eq_getElem?_getD, List.getElem?_range, hp]
    · rw [List.getD_append_right _ _ _ _ (by omega)]
      rw [hlen]
      have e1 : (p - 8) / 8 = p / 8 - 1 := by omega
      have e2 : (p - 8) % 8 = p % 8 := by omega
      obtain ⟨k, hk⟩ : ∃ k, p / 8 = k + 1 := ⟨p / 8 - 1, by omega⟩
      have ihp := ih (p - 8)
      simp only [bytesToBits] at ihp
      rw [ihp, e1, e2, hk]
      simp

theorem bytesToBits_zero_or_one (bytes : List Nat) (p : Nat) :
    (bytesToBits bytes).getD p 0 = 0 ∨ (bytesToBits bytes).getD p 0 = 1 := by
  rw [bytesToBits_getD]
  exact Nat.mod_two_eq_zero_or_one _

theorem lastOnePos_spec_none (bits : List Nat) (h : lastOnePos bits = none) :
    ∀ j, bits.getD j 0 = 0 := by
  induction bits with
  | nil => simp
  | cons b bs ih =>
    simp only [lastOnePos] at h
    split at h
    · exact absurd h (by simp)
    · rename_i hrec
      split at h
      · rename_i hb
        intro j
        cases j with
        | zero => simpa using hb
        | succ j => simpa using ih hrec j
      · simp at h

theorem lastOnePos_spec_some (bits : List Nat) (d : Nat) (h : lastOnePos bits = some d) :
    d < bits.length ∧ bits.getD d 0 ≠ 0 ∧ ∀ j, d < j → bits.getD j 0 = 0 := by
  induction bits generalizing d with
  | nil => simp [lastOnePos] at h
  | cons b bs ih =>
    simp only [lastOnePos] at h
    split at h
    · rename_i j hrec
      injection h with h; subst h
      obtain ⟨h1, h2, h3⟩ := ih j hrec
      refine ⟨by simpa using h1, by simpa using h2, ?_⟩
      intro k hk
      cases k with
      | zero => omega
      | succ k => simpa using h3 k (by omega)
    · rename_i hrec
      split at h
      · exact absurd h (by simp)
      · rename_i hb
        injection h with h; subst h
        refine ⟨by simp, by simpa using hb, ?_⟩
        intro k hk
        cases k with
        | zero => omega
        | succ k => simpa using lastOnePos_spec_none bs hrec k

theorem lastOnePos_eq_some_of (bits : List Nat) (d : Nat)
    (hd : bits.getD d 0 ≠ 0) (habove : ∀ j, d < j → bits.getD j 0 = 0) :
    lastOnePos bits = some d := by
  cases h : lastOnePos bits with
  | none => exact absurd (lastOnePos_spec_none bits h d) hd
  | some e =>
    obtain ⟨h1, h2, h3⟩ := lastOnePos_spec_some bits e h
    rcases Nat.lt_trichotomy d e with hlt | heq | hgt
    · exact absurd (habove e hlt) h2
    · rw [heq]
    · exact absurd (h3 d hgt) hd

/-! ### `decodeAggregationBits` (legacy, single-committee attestations) -/

/-- `decodeAggregationBits(aggregationBitsHex, committeeValidators)`:
strip `0x`, parse hex to bytes, expand LSB-first, find the delimiter
(rightmost 1 bit), and map data bits `i < delimiterPos`, `i < |committee|`
to `committeeValidators[i]`. -/
def decodeAggregationBits (h : List Char) (committeeValidators : List Nat) : List Nat :=
  match lastOnePos (aggBitsOf h) with
  | none => []
  | some d =>
      ((List.range (min d committeeValidators.length)).filter
        (fun i => (aggBitsOf h).getD i 0 == 1)).map
        (fun i => committeeValidators.getD i 0)

theorem decodeAggregationBits_mem (h : List Char) (committee : List Nat) (d : Nat)
    (hd : lastOnePos (aggBitsOf h) = some d) (x : Nat) :
    x ∈ decodeAggregationBits h committee ↔
      ∃ i, i < d ∧ i < committee.length ∧ (aggBitsOf h).getD i 0 = 1 ∧
        committee.getD i 0 = x := by
  simp only [decodeAggregationBits, hd, List.mem_map, List.mem_filter, List.mem_range,
    Nat.lt_min, beq_iff_eq]
  constructor
  · rintro ⟨i, ⟨⟨hi1, hi2⟩, hb⟩, rfl⟩
    exact ⟨i, hi1, hi2, hb, rfl⟩
  · rintro ⟨i, hi1, hi2, hb, rfl⟩
    exact ⟨i, ⟨⟨hi1, hi2⟩, hb⟩, rfl⟩

/-! ### `decodeCommitteeBits` (Electra committee bitvector) -/

/-- The committee indices contributed by one byte of `committee_bits`
(`base = 8 * byteIndex`); the inner loop breaks once the index reaches
`totalCommittees`, which — indices being increasing — is a filter. -/
def bitsOfByte (b base total : Nat) : List Nat :=
  ((List.range 8).filter
    (fun i => decide (base + i < total) && (b / 2 ^ i % 2 == 1))).map (base + ·)

def committeeBitsLoop : List Nat → Nat → Nat → List Nat
  | [], _, _ => []
  | b :: rest, base, total => bitsOfByte b base total ++ committeeBitsLoop rest (base + 8) total

/-- `decodeCommitteeBits(committeeBitsHex, totalCommittees)`. -/
def decodeCommitteeBits (h : List Char) (totalCommittees : Nat) : List Nat :=
  committeeBitsLoop (hexToBytes (strip0x h)) 0 totalCommittees

theorem committeeBitsLoop_mem (bytes : List Nat) (total : Nat) :
    ∀ base p, p ∈ committeeBitsLoop bytes base total ↔
      base ≤ p ∧ p < total ∧
        (bytes.getD ((p - base) / 8) 0) / 2 ^ ((p - base) % 8) % 2 = 1 := by
  induction bytes with
  | nil =>
    intro base p
    simp only [committeeBitsLoop, List.not_mem_nil, false_iff]
    rintro ⟨-, -, hval⟩
    simp at hval
  | cons b rest ih =>
    intro base p
    simp only [committeeBitsLoop, List.mem_append, bitsOfByte, List.mem_map,
      List.mem_filter, List.mem_range, Bool.and_eq_true, decide_eq_true_eq, beq_iff_eq,
      ih (base + 8) p]
    constructor
    · rintro (⟨i, ⟨hi, hlt, hbit⟩, rfl⟩ | ⟨hge, hlt, hval⟩)
      · have h0 : (base + i - base) / 8 = 0 := by omega
        have h1 : (base + i - base) % 8 = i := by omega
        rw [h0, h1]
        exact ⟨by omega, hlt, by simpa using hbit⟩
      · have h8 : 8 ≤ p - base := by omega
        obtain ⟨k, hk⟩ : ∃ k, (p - base) / 8 = k + 1 := ⟨(p - base) / 8 - 1, by omega⟩
        have h1 : (p - (base + 8)) / 8 = k := by omega
        have h2 : (p - (base + 8)) % 8 = (p - base) % 8 := by omega
        rw [h1, h2] at hval
        refine ⟨by omega, hlt, ?_⟩
        rw [hk]
        simpa using hval
    · rintro ⟨hbase, hlt, hval⟩
      rcases Nat.lt_or_ge (p - base) 8 with h8 | h8
      · left
        refine ⟨p - base, ⟨by omega, by omega, ?_⟩, by omega⟩
        have h0 : (p - base) / 8 = 0 := by omega
        have h1 : (p - base) % 8 = p - base := by omega
        rw [h0, h1] at hval
        simpa using hval
      · right
        obtain ⟨k, hk⟩ : ∃ k, (p - base) / 8 = k + 1 := ⟨(p - base) / 8 - 1, by omega⟩
        have h1 : (p - (base + 8)) / 8 = k := by omega
        have h2 : (p - (base + 8)) % 8 = (p - base) % 8 := by omega
        rw [hk] at hval
        simp only [List.getD_cons_succ] at hval
        rw [h1, h2]
        exact ⟨by omega, hlt, hval⟩

theorem committeeBitsLoop_pairwise (bytes : List Nat) (total : Nat) :
    ∀ base, List.Pairwise (· < ·) (committeeBitsLoop bytes base total) := by
  induction bytes with
  | nil => intro base; simp [committeeBitsLoop]
  | cons b rest ih =>
    intro base
    rw [committeeBitsLoop, List.pairwise_append]
    refine ⟨?_, ih (base + 8), ?_⟩
    · simp only [bitsOfByte]
      exact List.Pairwise.map _ (fun a b h => by omega)
        (List.Pairwise.filter _ (List.pairwise_lt_range 8))
    · intro x hx y hy
      simp only [bitsOfByte, List.mem_map, List.mem_filter, List.mem_range] at hx
      obtain ⟨i, ⟨hi, -⟩, rfl⟩ := hx
      have := ((committeeBitsLoop_mem rest total (base + 8) y).1 hy).1
      omega

/-- **C2.** Legacy aggregation-bits decoding: with `D` the position of the
highest set bit of the expanded bit sequence, the result is exactly the
validators `committee[i]` for `i ∈ [0, min(D, committee_size))` whose bit is
1; if no bit is set the result is empty, and a bitlist consisting of only
the delimiter bit yields the empty set. -/
theorem decodeAggregationBits_correct (h : List Char) (committee : List Nat) :
    (∀ D, (aggBitsOf h).getD D 0 = 1 →
      (∀ j < (aggBitsOf h).length, D < j → (aggBitsOf h).getD j 0 = 0) →
      ∀ x, x ∈ decodeAggregationBits h committee ↔
        ∃ i, i < D ∧ i < committee.length ∧ (aggBitsOf h).getD i 0 = 1 ∧
          committee.getD i 0 = x)
    ∧ ((∀ j < (aggBitsOf h).length, (aggBitsOf h).getD j 0 = 0) →
        decodeAggregationBits h committee = [])
    ∧ (∀ D, (aggBitsOf h).getD D 0 = 1 →
        (∀ j < (aggBitsOf h).length, j ≠ D → (aggBitsOf h).getD j 0 = 0) →
        decodeAggregationBits h committee = []) := by
  have hall : ∀ j, (aggBitsOf h).length ≤ j → (aggBitsOf h).getD j 0 = 0 := by
    intro j hj
    exact List.getD_eq_default _ _ hj
  refine ⟨?_, ?_, ?_⟩
  · intro D hD habove x
    have hsome : lastOnePos (aggBitsOf h) = some D := by
      apply lastOnePos_eq_some_of _ _ (by omega)
      intro j hj
      rcases Nat.lt_or_ge j (aggBitsOf h).length with hlen | hlen
      · exact habove j hlen hj
      · exact hall j hlen
    exact decodeAggregationBits_mem h committee D hsome x
  · intro hzero
    cases hl : lastOnePos (aggBitsOf h) with
    | none => simp [decodeAggregationBits, hl]
    | some d =>
      obtain ⟨h1, h2, -⟩ := lastOnePos_spec_some _ _ hl
      exact absurd (hzero d h1) h2
  · intro D hD hother
    have hsome : lastOnePos (aggBitsOf h) = some D := by
      apply lastOnePos_eq_some_of _ _ (by omega)
      intro j hj
      rcases Nat.lt_or_ge j (aggBitsOf h).length with hlen | hlen
      · exact hother j hlen (by omega)
      · exact hall j hlen
    have hD' : D < (aggBitsOf h).length := (lastOnePos_spec_some _ _ hsome).1
    rw [List.eq_nil_iff_forall_not_mem]
    intro x hx
    obtain ⟨i, hi1, -, hbit, -⟩ := (decodeAggregationBits_mem h committee D hsome x).1 hx
    have := hother i (by omega) (by omega)
    omega

/-- Witness for C2, on the spec's scenario 3: `aggregation_bits = 0x1b`
over committee `[100, 200, 300, 400]` (delimiter at bit 4, data `1,1,0,1`). -/
theorem decodeAggregationBits_correct_witness :
    (100 ∈ decodeAggregationBits ['0', 'x', '1', 'b'] [100, 200, 300, 400] ↔
      ∃ i, i < 4 ∧ i < 4 ∧ (aggBitsOf ['0', 'x', '1', 'b']).getD i 0 = 1 ∧
        [100, 200, 300, 400].getD i 0 = 100) ∧
    decodeAggregationBits ['0', 'x', '1', 'b'] [100, 200, 300, 400] = [100, 200, 400] ∧
    decodeAggregationBits ['0', 'x', '0', '1'] [7, 8, 9] = [] :=
  ⟨(decodeAggregationBits_correct ['0', 'x', '1', 'b'] [100, 200, 300, 400]).1 4
      (by decide) (by decide) 100,
    by decide,
    (decodeAggregationBits_correct ['0', 'x', '0', '1'] [7, 8, 9]).2.2 0
      (by decide) (by decide)⟩

/-- **C6.** `decodeCommitteeBits(h, N)` returns, in strictly ascending order,
exactly the bit positions `p < N` (LSB-first within each byte) whose bit is
set; set bits at positions `≥ N` are discarded. -/
theorem decodeCommitteeBits_correct (h : List Char) (N : Nat) :
    (∀ p, p ∈ decodeCommitteeBits h N ↔
      p < N ∧ (bytesToBits (hexToBytes (strip0x h))).getD p 0 = 1)
    ∧ List.Pairwise (· < ·) (decodeCommitteeBits h N) := by
  constructor
  · intro p
    rw [decodeCommitteeBits, committeeBitsLoop_mem, bytesToBits_getD]
    simp
  · exact committeeBitsLoop_pairwise _ N 0

/-- Witness for C6: `0x8c` (`10001100₂`, LSB-first bits set at 2, 3, 7)
with 4 committees keeps `[2, 3]` and discards position 7. -/
theorem decodeCommitteeBits_correct_witness :
    (2 ∈ decodeCommitteeBits ['0', 'x', '8', 'c'] 4 ↔
      2 < 4 ∧ (bytesToBits (hexToBytes (strip0x ['0', 'x', '8', 'c']))).getD 2 0 = 1) ∧
    decodeCommitteeBits ['0', 'x', '8', 'c'] 4 = [2, 3] :=
  ⟨(decodeCommitteeBits_correct ['0', 'x', '8', 'c'] 4).1 2, by decide⟩

/-! ### Data model: blocks, committees, attestations, the beacon world -/

structure Committee where
  slot : Nat
  index : Nat
  validators : List Nat
deriving DecidableEq

structure Attestation where
  dataSlot : Nat
  dataIndex : Nat
  aggregationBits : List Char
  committeeBits : Option (List Char)
deriving DecidableEq

structure Withdrawal where
  validatorIndex : Nat
  address : List Char
  amount : Nat
deriving DecidableEq

structure ExecutionPayload where
  blockNumber : Nat
  withdrawals : List Withdrawal
deriving DecidableEq

structure Block where
  slot : Nat
  proposerIndex : Nat
  attestations : List Attestation
  executionPayload : Option ExecutionPayload
deriving DecidableEq

/-- The finalized chain as the beacon node serves it: blocks by slot (absent
entry = missed slot / 404) and the raw committees response by slot. -/
structure World where
  blocks : List (Nat × Block)
  committees : List (Nat × List Committee)

/-- `getCachedBlock(slot)` resolved against the chain (404 → `none`). -/
def World.blockAt (w : World) (s : Nat) : Option Block :=
  (w.blocks.find? (fun p => p.1 == s)).map (·.2)

/-- `getCachedCommittees(slot)`: the response filtered to `c.slot === slot`
and sorted (stably) by committee index. -/
def World.committeesAt (w : World) (s : Nat) : List Committee :=
  List.insertionSort (fun a b => a.index ≤ b.index)
    ((((w.committees.find? (fun p => p.1 == s)).map (·.2)).getD []).filter
      (fun c => c.slot == s))

/-! ### Electra (EIP-7549) multi-committee decoding inside `getAttestations` -/

/-- The per-committee walk over `includedCommittees`: find the committee,
consume its `committeeSize` bits starting at `offset` but stopping at the
delimiter, and advance the offset (a missing committee is skipped without
advancing, as in the source). Returns `(committeeIndex, attestingValidators)`
pairs, unfiltered. -/
def electraGo (bits : List Nat) (delim : Nat) (committees : List Committee) :
    List Nat → Nat → List (Nat × List Nat)
  | [], _ => []
  | cIdx :: rest, offset =>
    match committees.find? (fun c => c.index == cIdx) with
    | none => electraGo bits delim committees rest offset
    | some c =>
      (cIdx, ((List.range c.validators.length).filter
          (fun i => decide (offset + i < delim) && (bits.getD (offset + i) 0 == 1))).map
          (fun i => c.validators.getD i 0)) ::
        electraGo bits delim committees rest (offset + c.validators.length)

/-- The Electra branch of `getAttestations`: find the delimiter of the full
bit expansion and, when present, walk the included committees from offset 0. -/
def electraDecode (bits : List Nat) (committees : List Committee) (included : List Nat) :
    List (Nat × List Nat) :=
  match lastOnePos bits with
  | none => []
  | some d => electraGo bits d committees included 0

/-! ### `getAttestations`: rows, deduplication, and the per-slot union -/

structure AttRow where
  fSlot : Nat
  fInclusionSlot : Nat
  fInclusionIndex : Nat
  fAggregationIndices : List Nat
deriving DecidableEq

/-- Pre-Electra branch: find the committee named by `data.index`, decode the
aggregation bits over it, filter to monitored validators, and emit one row
when nonempty. -/
def legacyRows (committees : List Committee) (mon : List Nat) (a : Attestation)
    (inclusionSlot : Nat) : List AttRow :=
  match committees.find? (fun c => c.index == a.dataIndex) with
  | none => []
  | some c =>
    let filtered := (decodeAggregationBits a.aggregationBits c.validators).filter
      (fun v => mon.contains v)
    if filtered.isEmpty then [] else [⟨a.dataSlot, inclusionSlot, a.dataIndex, filtered⟩]

/-- All rows one attestation contributes (Electra: one row per included
committee with monitored participants; legacy: at most one row). -/
def attRows (committees : List Committee) (mon : List Nat) (a : Attestation)
    (inclusionSlot : Nat) : List AttRow :=
  match a.committeeBits with
  | some cb =>
    (electraDecode (aggBitsOf a.aggregationBits) committees
        (decodeCommitteeBits cb committees.length)).filterMap (fun p =>
      let filtered := p.2.filter (fun v => mon.contains v)
      if filtered.isEmpty then none
      else some ⟨a.dataSlot, inclusionSlot, p.1, filtered⟩)
  | none => legacyRows committees mon a inclusionSlot

/-- The decoded participation of an attestation, before the monitored-set
filter — "whose decoded participation includes v" in the claims. -/
def attParticipants (committees : List Committee) (a : Attestation) : List Nat :=
  match a.committeeBits with
  | some cb =>
    (electraDecode (aggBitsOf a.aggregationBits) committees
        (decodeCommitteeBits cb committees.length)).flatMap (·.2)
  | none =>
    match committees.find? (fun c => c.index == a.dataIndex) with
    | none => []
    | some c => decodeAggregationBits a.aggregationBits c.validators

/-- `getAttestations(fromBlockId, toBlockId, validators)` before
deduplication: scan blocks at slots `fromBlockId+1 .. toBlockId+32`, keep
attestations whose `data.slot` lies in `(fromBlockId, toBlockId]`, and decode
each against the committees of its data slot. -/
def getAttestationsRaw (w : World) (mon : List Nat) (fromB toB : Nat) : List AttRow :=
  (List.range' (fromB + 1) (toB + 32 - fromB)).flatMap (fun i =>
    match w.blockAt i with
    | none => []
    | some b => b.attestations.flatMap (fun a =>
        if a.dataSlot ≤ fromB ∨ toB < a.dataSlot then []
        else attRows (w.committeesAt a.dataSlot) mon a i))

/-- Merge step of the `(slot, committee)`-keyed dedup map: append each
validator not already present. -/
def pushNew : List Nat → List Nat → List Nat
  | acc, [] => acc
  | acc, v :: rest => if acc.contains v then pushNew acc rest else pushNew (acc ++ [v]) rest

/-- Insert one row into the dedup accumulator, merging on the
`(f_slot, f_inclusion_index)` key. -/
def addRow : List AttRow → AttRow → List AttRow
  | [], r => [r]
  | x :: xs, r =>
    if x.fSlot == r.fSlot && x.fInclusionIndex == r.fInclusionIndex then
      { x with fAggregationIndices := pushNew x.fAggregationIndices r.fAggregationIndices } :: xs
    else x :: addRow xs r

def dedupRows (l : List AttRow) : List AttRow := l.foldl addRow []

def getAttestations (w : World) (mon : List Nat) (fromB toB : Nat) : List AttRow :=
  dedupRows (getAttestationsRaw w mon fromB toB)

/-! ### The main loop's attestation reconciliation -/

structure CommitteeRow where
  fSlot : Nat
  fCommitteeIndex : Nat
  fCommittee : List Nat
deriving DecidableEq

/-- `getAttestationDuties(fromBlockId, toBlockId, validators)`: every
committee at a slot in `(fromBlockId, toBlockId]` containing a monitored
validator. -/
def getAttestationDuties (w : World) (mon : List Nat) (fromB toB : Nat) :
    List CommitteeRow :=
  (List.range' (fromB + 1) (toB - fromB)).flatMap (fun s =>
    (w.committeesAt s).filterMap (fun c =>
      if mon.any (fun v => c.validators.contains v) then
        some ⟨c.slot, c.index, c.validators⟩
      else none))

/-- `committee.filter(v => validatorsToMonitor.includes(v))`. -/
def ourValidators (mon committee : List Nat) : List Nat :=
  committee.filter (fun v => mon.contains v)

/-- The `attestedValidators` set built per duty slot from the attestation rows. -/
def attestedSetFor (rows : List AttRow) (s : Nat) : List Nat :=
  (rows.filter (fun r => r.fSlot == s)).flatMap (·.fAggregationIndices)

/-- One entry `(attested?, validator, slot)` per monitored committee member
per duty — `true` lands in `submittedAttestations`, `false` in
`missedAttestations`. -/
def attestationEvents (w : World) (mon : List Nat) (fromB toB : Nat) :
    List (Bool × Nat × Nat) :=
  (getAttestationDuties w mon fromB toB).flatMap (fun d =>
    (ourValidators mon d.fCommittee).map (fun v =>
      ((attestedSetFor (getAttestations w mon fromB toB) d.fSlot).contains v, v, d.fSlot)))

/-! ### Deduplication preserves per-slot participation -/

theorem pushNew_mem (x : Nat) : ∀ l acc, x ∈ pushNew acc l ↔ x ∈ acc ∨ x ∈ l := by
  intro l
  induction l with
  | nil => intro acc; simp [pushNew]
  | cons v rest ih =>
    intro acc
    simp only [pushNew]
    split
    · rename_i hv
      rw [ih acc]
      rw [List.elem_iff] at hv
      simp only [List.mem_cons]
      constructor
      · rintro (h | h)
        · exact Or.inl h
        · exact Or.inr (Or.inr h)
      · rintro (h | rfl | h)
        · exact Or.inl h
        · exact Or.inl hv
        · exact Or.inr h
    · rw [ih (acc ++ [v])]
      simp only [List.mem_append, List.mem_singleton, List.mem_cons]
      tauto

/-- Membership in the per-slot union is invariant under one `addRow` merge. -/
theorem addRow_exists (s v : Nat) (r : AttRow) :
    ∀ acc, (∃ x ∈ addRow acc r, x.fSlot = s ∧ v ∈ x.fAggregationIndices) ↔
      (∃ x ∈ acc, x.fSlot = s ∧ v ∈ x.fAggregationIndices) ∨
        (r.fSlot = s ∧ v ∈ r.fAggregationIndices) := by
  intro acc
  induction acc with
  | nil => simp [addRow]
  | cons x xs ih =>
    simp only [addRow]
    split
    · rename_i hkey
      simp only [Bool.and_eq_true, beq_iff_eq] at hkey
      obtain ⟨hk1, hk2⟩ := hkey
      simp only [List.mem_cons, exists_eq_or_imp]
      rw [pushNew_mem v r.fAggregationIndices x.fAggregationIndices, ← hk1]
      constructor
      · rintro (⟨hs, hv | hv⟩ | hrest)
        · exact Or.inl (Or.inl ⟨hs, hv⟩)
        · exact Or.inr ⟨hs, hv⟩
        · exact Or.inl (Or.inr hrest)
      · rintro ((⟨hs, hv⟩ | hrest) | ⟨hs, hv⟩)
        · exact Or.inl ⟨hs, Or.inl hv⟩
        · exact Or.inr hrest
        · exact Or.inl ⟨hs, Or.inr hv⟩
    · simp only [List.mem_cons, exists_eq_or_imp]
      rw [ih]
      exact or_assoc.symm

theorem dedupRows_exists (s v : Nat) (l : List AttRow) :
    (∃ x ∈ dedupRows l, x.fSlot = s ∧ v ∈ x.fAggregationIndices) ↔
      ∃ x ∈ l, x.fSlot = s ∧ v ∈ x.fAggregationIndices := by
  have main : ∀ (l acc : List AttRow),
      (∃ x ∈ l.foldl addRow acc, x.fSlot = s ∧ v ∈ x.fAggregationIndices) ↔
        (∃ x ∈ acc, x.fSlot = s ∧ v ∈ x.fAggregationIndices) ∨
          (∃ x ∈ l, x.fSlot = s ∧ v ∈ x.fAggregationIndices) := by
    intro l
    induction l with
    | nil => intro acc; simp
    | cons r rest ih =>
      intro acc
      simp only [List.foldl_cons]
      rw [ih (addRow acc r), addRow_exists]
      simp only [List.mem_cons, exists_eq_or_imp]
      exact or_assoc
  rw [dedupRows, main]
  simp

/-! ### From rows back to decoded participation -/

/-- The rows an attestation contributes carry a monitored validator `v` at
slot `s` exactly when `data.slot = s` and the decoded participation
includes `v`. -/
theorem attRows_exists (committees : List Committee) (mon : List Nat) (a : Attestation)
    (i s v : Nat) (hv : v ∈ mon) :
    (∃ r ∈ attRows committees mon a i, r.fSlot = s ∧ v ∈ r.fAggregationIndices) ↔
      a.dataSlot = s ∧ v ∈ attParticipants committees a := by
  have hcont : mon.contains v = true := by rw [List.elem_iff]; exact hv
  cases hcb : a.committeeBits with
  | none =>
    simp only [attRows, attParticipants, hcb, legacyRows]
    cases hfind : committees.find? (fun c => c.index == a.dataIndex) with
    | none => simp
    | some c =>
      simp only
      split
      · rename_i hempty
        rw [List.isEmpty_iff] at hempty
        constructor
        · rintro ⟨r, hr, -⟩
          exact absurd hr (List.not_mem_nil r)
        · rintro ⟨-, hdec⟩
          have hvf : v ∈ (decodeAggregationBits a.aggregationBits c.validators).filter
              (fun v => mon.contains v) := List.mem_filter.2 ⟨hdec, hcont⟩
          rw [hempty] at hvf
          exact absurd hvf (List.not_mem_nil v)
      · constructor
        · rintro ⟨r, hr, hs, hvr⟩
          rw [List.mem_singleton] at hr
          subst hr
          exact ⟨hs, (List.mem_filter.1 hvr).1⟩
        · rintro ⟨hds, hdec⟩
          exact ⟨_, List.mem_singleton.2 rfl, hds, List.mem_filter.2 ⟨hdec, hcont⟩⟩
  | some cb =>
    simp only [attRows, attParticipants, hcb, List.mem_filterMap, List.mem_flatMap]
    constructor
    · rintro ⟨r, ⟨p, hp, hmk⟩, hs, hvr⟩
      by_cases hempty : (p.2.filter (fun v => mon.contains v)).isEmpty = true
      · rw [if_pos hempty] at hmk
        exact absurd hmk (by simp)
      · rw [if_neg hempty] at hmk
        injection hmk with hmk
        subst hmk
        exact ⟨hs, p, hp, (List.mem_filter.1 hvr).1⟩
    · rintro ⟨hds, p, hp, hvp⟩
      have hvf : v ∈ p.2.filter (fun v => mon.contains v) := List.mem_filter.2 ⟨hvp, hcont⟩
      have hne : ¬ (p.2.filter (fun v => mon.contains v)).isEmpty = true := by
        intro h
        rw [List.isEmpty_iff] at h
        rw [h] at hvf
        exact absurd hvf (List.not_mem_nil v)
      exact ⟨⟨a.dataSlot, i, p.1, p.2.filter (fun v => mon.contains v)⟩,
        ⟨p, hp, by rw [if_neg hne]⟩, hds, hvf⟩

theorem attestedSetFor_mem (rows : List AttRow) (s v : Nat) :
    v ∈ attestedSetFor rows s ↔ ∃ r ∈ rows, r.fSlot = s ∧ v ∈ r.fAggregationIndices := by
  simp only [attestedSetFor, List.mem_flatMap, List.mem_filter, beq_iff_eq]
  constructor
  · rintro ⟨r, ⟨hr, hs⟩, hvr⟩
    exact ⟨r, hr, hs, hvr⟩
  · rintro ⟨r, hr, hs, hvr⟩
    exact ⟨r, ⟨hr, hs⟩, hvr⟩

/-- Membership characterization of the raw (pre-dedup) attestation scan:
the inclusion window is the batch-relative `[fromB+1, toB+32]`. -/
theorem getAttestationsRaw_exists (w : World) (mon : List Nat) (fromB toB s v : Nat)
    (hv : v ∈ mon) (hs1 : fromB < s) (hs2 : s ≤ toB) :
    (∃ r ∈ getAttestationsRaw w mon fromB toB,
        r.fSlot = s ∧ v ∈ r.fAggregationIndices) ↔
      ∃ i, fromB + 1 ≤ i ∧ i ≤ toB + 32 ∧ ∃ b, w.blockAt i = some b ∧
        ∃ a ∈ b.attestations, a.dataSlot = s ∧
          v ∈ attParticipants (w.committeesAt s) a := by
  simp only [getAttestationsRaw, List.mem_flatMap, List.mem_range'_1]
  constructor
  · rintro ⟨r, ⟨i, ⟨hi1, hi2⟩, hri⟩, hP⟩
    cases hb : w.blockAt i with
    | none =>
      rw [hb] at hri
      exact absurd hri (List.not_mem_nil r)
    | some b =>
      rw [hb] at hri
      rw [List.mem_flatMap] at hri
      obtain ⟨a, ha, hra⟩ := hri
      by_cases hguard : a.dataSlot ≤ fromB ∨ toB < a.dataSlot
      · rw [if_pos hguard] at hra
        exact absurd hra (List.not_mem_nil r)
      · rw [if_neg hguard] at hra
        have hmain := (attRows_exists (w.committeesAt a.dataSlot) mon a i s v hv).1
          ⟨r, hra, hP⟩
        obtain ⟨hds, hpart⟩ := hmain
        rw [hds] at hpart
        exact ⟨i, by omega, by omega, b, hb, a, ha, hds, hpart⟩
  · rintro ⟨i, hi1, hi2, b, hb, a, ha, hds, hpart⟩
    have hguard : ¬ (a.dataSlot ≤ fromB ∨ toB < a.dataSlot) := by omega
    have hpart' : v ∈ attParticipants (w.committeesAt a.dataSlot) a := by
      rw [hds]; exact hpart
    obtain ⟨r, hr, hP⟩ := (attRows_exists (w.committeesAt a.dataSlot) mon a i s v hv).2
      ⟨hds, hpart'⟩
    refine ⟨r, ⟨i, ⟨hi1, by omega⟩, ?_⟩, hP⟩
    rw [hb, List.mem_flatMap]
    exact ⟨a, ha, by rw [if_neg hguard]; exact hr⟩

/-- Whether the main loop counts `v` as having attested for slot `s`:
membership in the per-slot union of `f_aggregation_indices`. -/
theorem countedAttested_iff (w : World) (mon : List Nat) (fromB toB s v : Nat)
    (hv : v ∈ mon) (hs1 : fromB < s) (hs2 : s ≤ toB) :
    v ∈ attestedSetFor (getAttestations w mon fromB toB) s ↔
      ∃ i, fromB + 1 ≤ i ∧ i ≤ toB + 32 ∧ ∃ b, w.blockAt i = some b ∧
        ∃ a ∈ b.attestations, a.dataSlot = s ∧
          v ∈ attParticipants (w.committeesAt s) a := by
  rw [attestedSetFor_mem, getAttestations, dedupRows_exists]
  exact getAttestationsRaw_exists w mon fromB toB s v hv hs1 hs2

theorem attestationEvents_mem (w : World) (mon : List Nat) (fromB toB : Nat)
    (k : Bool) (v s : Nat) :
    (k, v, s) ∈ attestationEvents w mon fromB toB ↔
      ∃ d ∈ getAttestationDuties w mon fromB toB, d.fSlot = s ∧
        v ∈ ourValidators mon d.fCommittee ∧
        (attestedSetFor (getAttestations w mon fromB toB) s).contains v = k := by
  simp only [attestationEvents, List.mem_flatMap, List.mem_map]
  constructor
  · rintro ⟨d, hd, v', hv', heq⟩
    rw [Prod.mk.injEq, Prod.mk.injEq] at heq
    obtain ⟨hk, rfl, hds⟩ := heq
    refine ⟨d, hd, hds, hv', ?_⟩
    rw [← hds]
    exact hk
  · rintro ⟨d, hd, hds, hv', hk⟩
    refine ⟨d, hd, v, hv', ?_⟩
    rw [Prod.mk.injEq, Prod.mk.injEq]
    exact ⟨by rw [hds]; exact hk, rfl, hds⟩

/-- A monitored validator in a committee of a batch slot always yields a duty
row: the committee survives the filter (it contains `v`) and the row keeps
its slot and members. -/
theorem getAttestationDuties_of_committee (w : World) (mon : List Nat)
    (fromB toB s v : Nat) (hv : v ∈ mon) (hs1 : fromB < s) (hs2 : s ≤ toB)
    (c : Committee) (hc : c ∈ w.committeesAt s) (hvc : v ∈ c.validators) :
    ∃ d ∈ getAttestationDuties w mon fromB toB, d.fSlot = s ∧
      v ∈ ourValidators mon d.fCommittee := by
  have hcs : c.slot = s := by
    have h1 := (List.mem_insertionSort _).1 hc
    have h2 := (List.mem_filter.1 h1).2
    simpa using h2
  have hany : mon.any (fun x => c.validators.contains x) = true := by
    rw [List.any_eq_true]
    exact ⟨v, hv, by rw [List.elem_iff]; exact hvc⟩
  refine ⟨⟨c.slot, c.index, c.validators⟩, ?_, hcs, ?_⟩
  · simp only [getAttestationDuties, List.mem_flatMap, List.mem_range'_1]
    refine ⟨s, ⟨by omega, by omega⟩, ?_⟩
    rw [List.mem_filterMap]
    exact ⟨c, hc, by rw [if_pos hany]⟩
  · simp only [ourValidators, List.mem_filter]
    exact ⟨hvc, by rw [List.elem_iff]; exact hv⟩

/-- **C1 (amended).** For a monitored validator `v` in a committee at slot
`s ∈ (S_begin, S_end]` of a processed batch, `v` is counted as having
attested iff some block at an inclusion slot `i ∈ [S_begin+1, S_end+32]` —
the *batch-relative* window the code actually scans, not the per-slot window
`[s+1, s+32]` of the claim — contains an attestation with `data.slot = s`
whose decoded participation includes `v`; otherwise `v` yields a missed
attestation. -/
theorem attestation_window_batch_relative (w : World) (mon : List Nat)
    (fromB toB s v : Nat) (hv : v ∈ mon) (hs1 : fromB < s) (hs2 : s ≤ toB)
    (c : Committee) (hc : c ∈ w.committeesAt s) (hvc : v ∈ c.validators) :
    ((true, v, s) ∈ attestationEvents w mon fromB toB ↔
      ∃ i, fromB + 1 ≤ i ∧ i ≤ toB + 32 ∧ ∃ b, w.blockAt i = some b ∧
        ∃ a ∈ b.attestations, a.dataSlot = s ∧
          v ∈ attParticipants (w.committeesAt s) a)
    ∧ ((false, v, s) ∈ attestationEvents w mon fromB toB ↔
      ¬ ∃ i, fromB + 1 ≤ i ∧ i ≤ toB + 32 ∧ ∃ b, w.blockAt i = some b ∧
        ∃ a ∈ b.attestations, a.dataSlot = s ∧
          v ∈ attParticipants (w.committeesAt s) a) := by
  have hduty := getAttestationDuties_of_committee w mon fromB toB s v hv hs1 hs2 c hc hvc
  have hcore := countedAttested_iff w mon fromB toB s v hv hs1 hs2
  constructor
  · rw [attestationEvents_mem]
    constructor
    · rintro ⟨d, hd, hds, hvo, hk⟩
      exact hcore.1 (by simpa using hk)
    · intro hrhs
      obtain ⟨d, hd, hds, hvo⟩ := hduty
      exact ⟨d, hd, hds, hvo, by simpa using hcore.2 hrhs⟩
  · rw [attestationEvents_mem]
    constructor
    · rintro ⟨d, hd, hds, hvo, hk⟩
      intro hrhs
      have hk' : v ∉ attestedSetFor (getAttestations w mon fromB toB) s := by
        simpa using hk
      exact hk' (hcore.2 hrhs)
    · intro hrhs
      obtain ⟨d, hd, hds, hvo⟩ := hduty
      refine ⟨d, hd, hds, hvo, ?_⟩
      have hnot : v ∉ attestedSetFor (getAttestations w mon fromB toB) s :=
        fun hmem => hrhs (hcore.1 hmem)
      simpa using hnot

/-- A chain where the only attestation for slot 1 sits in the block at slot
34 = s + 33, outside the claim's per-slot window `[s+1, s+32]` but inside the
batch scan `(0, 2+32]` for the batch `(0, 2]`. -/
def exW : World :=
  ⟨[(34, ⟨34, 90, [⟨1, 0, ['0', 'x', '0', '5'], none⟩], none⟩)],
    [(1, [⟨1, 0, [100, 200]⟩])]⟩

/-- **C1 (counterexample).** In `exW`, monitored validator 100 sits in the
committee of slot 1 of batch `(0, 2]`; its attestation appears only at
inclusion slot 34 = s + 33 (no block exists at any slot < 34), so the claim
demands `AttestationMissed(100, 1)` — but the code emits the attested event. -/
theorem attestation_window_counterexample :
    attestationEvents exW [100] 0 2 = [(true, 100, 1)] ∧
    (∀ i < 34, exW.blockAt i = none) := by decide

/-- Witness for C1's amended theorem at the concrete world `exW`. -/
theorem attestation_window_batch_relative_witness :
    (true, 100, 1) ∈ attestationEvents exW [100] 0 2 ↔
      ∃ i, 0 + 1 ≤ i ∧ i ≤ 2 + 32 ∧ ∃ b, exW.blockAt i = some b ∧
        ∃ a ∈ b.attestations, a.dataSlot = 1 ∧
          100 ∈ attParticipants (exW.committeesAt 1) a :=
  (attestation_window_batch_relative exW [100] 0 2 1 100 (by decide) (by decide)
    (by decide) ⟨1, 0, [100, 200]⟩ (by decide) (by decide)).1

/-! ### C3: Electra size mismatch is silently truncated, not an error -/

theorem bool_cond_eq (x y : Bool) (h : x = true ↔ y = true) : x = y := by
  cases x <;> cases y <;> simp_all

/-- `electraGo` consults the bits only through the predicate
"position `p` is a data bit and is set". -/
theorem electraGo_congr (bits bits' : List Nat) (d d' : Nat) (committees : List Committee)
    (h : ∀ p, (p < d ∧ bits.getD p 0 = 1) ↔ (p < d' ∧ bits'.getD p 0 = 1)) :
    ∀ included offset, electraGo bits d committees included offset =
      electraGo bits' d' committees included offset := by
  intro included
  induction included with
  | nil => intro offset; rfl
  | cons cIdx rest ih =>
    intro offset
    simp only [electraGo]
    cases hfind : committees.find? (fun c => c.index == cIdx) with
    | none => exact ih offset
    | some c =>
      have hfilter : ((List.range c.validators.length).filter
          (fun i => decide (offset + i < d) && (bits.getD (offset + i) 0 == 1))) =
          ((List.range c.validators.length).filter
            (fun i => decide (offset + i < d') && (bits'.getD (offset + i) 0 == 1))) := by
        apply List.filter_congr
        intro i _
        apply bool_cond_eq
        simp only [Bool.and_eq_true, decide_eq_true_eq, beq_iff_eq]
        exact h (offset + i)
      dsimp only
      rw [hfilter, ih (offset + c.validators.length)]

/-- **C3 (amended).** A mismatch between the data bits and the selected
committees' total size is neither reported nor discarded: decoding behaves
exactly as if the bitlist's data had been zero-extended (by any amount `m`)
to a well-formed bitlist — missing positions count as "did not attest", and
the walk silently truncates at the delimiter. -/
theorem electra_truncation_amended (bits : List Nat) (committees : List Committee)
    (included : List Nat) (d : Nat) (hd : lastOnePos bits = some d) (m : Nat) :
    electraDecode bits committees included =
      electraDecode (bits.take d ++ (List.replicate m 0 ++ [1])) committees included := by
  have hlen : d < bits.length := (lastOnePos_spec_some bits d hd).1
  have htake : (bits.take d).length = d := by
    simp [Nat.min_eq_left (Nat.le_of_lt hlen)]
  have hpadlen : (List.replicate m 0 ++ [1] : List Nat).length = m + 1 := by simp
  have hpad : lastOnePos (bits.take d ++ (List.replicate m 0 ++ [1])) = some (d + m) := by
    apply lastOnePos_eq_some_of
    · rw [List.getD_append_right _ _ _ _ (by omega)]
      rw [List.getD_append_right _ _ _ _ (by simp; omega)]
      simp [htake]
    · intro j hj
      apply List.getD_eq_default
      simp only [List.length_append, htake, hpadlen]
      omega
  rw [electraDecode, electraDecode, hd, hpad]
  apply electraGo_congr
  intro p
  constructor
  · rintro ⟨hp, hbit⟩
    refine ⟨by omega, ?_⟩
    rw [List.getD_append _ _ _ _ (by omega)]
    rw [List.getD_eq_getElem?_getD, List.getElem?_take, if_pos hp,
      ← List.getD_eq_getElem?_getD]
    exact hbit
  · rintro ⟨hp, hbit⟩
    rcases Nat.lt_or_ge p d with hpd | hpd
    · refine ⟨hpd, ?_⟩
      rw [List.getD_append _ _ _ _ (by omega)] at hbit
      rw [List.getD_eq_getElem?_getD, List.getElem?_take, if_pos hpd,
        ← List.getD_eq_getElem?_getD] at hbit
      exact hbit
    · exfalso
      rw [List.getD_append_right _ _ _ _ (by omega)] at hbit
      rw [List.getD_append _ _ _ _ (by simp [htake]; omega)] at hbit
      rw [List.getD_eq_getElem?_getD, List.getElem?_replicate, htake,
        if_pos (by omega)] at hbit
      simp at hbit

/-- Committees at slot 4 with sizes 2 and 2, both selected by
`committee_bits = 0x03`. -/
def exElectraCommittees : List Committee := [⟨4, 0, [1, 2]⟩, ⟨4, 1, [11, 12]⟩]

/-- An Electra aggregate whose bitlist has only 2 data bits (delimiter at
position 2) although the selected committees need 4. -/
def exElectraAtt : Attestation :=
  ⟨4, 0, ['0', 'x', '0', '5'], some ['0', 'x', '0', '3']⟩

/-- **C3 (counterexample).** A deficit Electra aggregate — 2 data bits for a
selected total of 4 — is not reported as a decode error and not discarded:
the code still extracts validator 1 of committee 0 as attesting and emits
the row, silently treating the missing bits as absences. -/
theorem electra_size_mismatch_counterexample :
    lastOnePos (aggBitsOf exElectraAtt.aggregationBits) = some 2 ∧
    ((decodeCommitteeBits ['0', 'x', '0', '3'] exElectraCommittees.length).map
      (fun cIdx => ((exElectraCommittees.find? (fun c => c.index == cIdx)).map
        (fun c => c.validators.length)).getD 0)).sum = 4 ∧
    attRows exElectraCommittees [1] exElectraAtt 5 = [⟨4, 5, 0, [1]⟩] := by decide

/-- Witness for C3's amended theorem at the deficit input `exElectraAtt`. -/
theorem electra_truncation_amended_witness :
    electraDecode (aggBitsOf ['0', 'x', '0', '5']) exElectraCommittees [0, 1] =
      electraDecode ((aggBitsOf ['0', 'x', '0', '5']).take 2 ++
        (List.replicate 2 0 ++ [1])) exElectraCommittees [0, 1] :=
  electra_truncation_amended _ exElectraCommittees [0, 1] 2 (by decide) 2

/-! ### Proposer reconciliation (main loop, proposer duties) -/

structure ProposerDuty where
  fSlot : Nat
  fValidatorIndex : Nat
deriving DecidableEq

/-- A row of `getNewBlocks` (only existing canonical blocks appear). -/
structure BlockInfo where
  fSlot : Nat
  fProposerIndex : Nat
  fExecBlockNumber : Option Nat
deriving DecidableEq

/-- `blocksBySlot[parseInt(block.f_slot)] = block` — later entries win. -/
def buildBlocksBySlot (blocks : List BlockInfo) : Nat → Option BlockInfo :=
  fun s => blocks.foldl (fun acc b => if b.fSlot == s then some b else acc) none

inductive ProposerEvent
  | proposed (slot validator : Nat) (execBlockNumber : Option Nat)
  | missed (slot validator : Nat)
deriving DecidableEq

/-- The proposer-duty loop: one notification per duty; `BlockProposed` iff a
block exists at the duty slot and its proposer index equals the duty's
validator, `BlockMissed` otherwise. -/
def processProposerDuties : List ProposerDuty → (Nat → Option BlockInfo) → List ProposerEvent
  | [], _ => []
  | duty :: rest, blocksBySlot =>
    (match blocksBySlot duty.fSlot with
     | some b =>
       if b.fProposerIndex == duty.fValidatorIndex then
         .proposed duty.fSlot duty.fValidatorIndex b.fExecBlockNumber
       else .missed duty.fSlot duty.fValidatorIndex
     | none => .missed duty.fSlot duty.fValidatorIndex) ::
      processProposerDuties rest blocksBySlot

def eventSlotValidator : ProposerEvent → Nat × Nat
  | .proposed s v _ => (s, v)
  | .missed s v => (s, v)

/-- The single event the loop body produces for one duty. -/
def eventForDuty (blocksBySlot : Nat → Option BlockInfo) (d : ProposerDuty) : ProposerEvent :=
  match blocksBySlot d.fSlot with
  | some b =>
    if b.fProposerIndex == d.fValidatorIndex then
      .proposed d.fSlot d.fValidatorIndex b.fExecBlockNumber
    else .missed d.fSlot d.fValidatorIndex
  | none => .missed d.fSlot d.fValidatorIndex

theorem processProposerDuties_eq_map (duties : List ProposerDuty)
    (blocksBySlot : Nat → Option BlockInfo) :
    processProposerDuties duties blocksBySlot = duties.map (eventForDuty blocksBySlot) := by
  induction duties with
  | nil => rfl
  | cons d rest ih => simp only [processProposerDuties, eventForDuty, List.map_cons, ih]

theorem eventSlotValidator_eventForDuty (blocksBySlot : Nat → Option BlockInfo)
    (d : ProposerDuty) :
    eventSlotValidator (eventForDuty blocksBySlot d) = (d.fSlot, d.fValidatorIndex) := by
  unfold eventForDuty
  cases blocksBySlot d.fSlot with
  | none => rfl
  | some b =>
    dsimp only
    by_cases hp : b.fProposerIndex == d.fValidatorIndex
    · rw [if_pos hp]; rfl
    · rw [if_neg hp]; rfl

/-- **C4.** For a proposer duty `(s, v)` appearing exactly once, the loop
emits exactly one event for `(s, v)`: `BlockProposed` when a block exists at
`s` with proposer index `v`, and `BlockMissed` otherwise — both when the
block exists with a different proposer and when the slot has no block
(missed slot / tombstone). -/
theorem proposer_duty_exactly_one_event (duties : List ProposerDuty)
    (blocks : List BlockInfo) (s v : Nat)
    (h : (duties.filter
      (fun d => d.fSlot == s && d.fValidatorIndex == v)).length = 1) :
    ((processProposerDuties duties (buildBlocksBySlot blocks)).filter
        (fun e => eventSlotValidator e == (s, v))).length = 1 ∧
    (∀ b, buildBlocksBySlot blocks s = some b → b.fProposerIndex = v →
      (processProposerDuties duties (buildBlocksBySlot blocks)).filter
          (fun e => eventSlotValidator e == (s, v)) =
        [.proposed s v b.fExecBlockNumber]) ∧
    (∀ b, buildBlocksBySlot blocks s = some b → b.fProposerIndex ≠ v →
      (processProposerDuties duties (buildBlocksBySlot blocks)).filter
          (fun e => eventSlotValidator e == (s, v)) = [.missed s v]) ∧
    (buildBlocksBySlot blocks s = none →
      (processProposerDuties duties (buildBlocksBySlot blocks)).filter
          (fun e => eventSlotValidator e == (s, v)) = [.missed s v]) := by
  set lookup := buildBlocksBySlot blocks with hlookup
  have hpred : ∀ d : ProposerDuty,
      ((fun e => eventSlotValidator e == (s, v)) (eventForDuty lookup d)) =
        (d.fSlot == s && d.fValidatorIndex == v) := by
    intro d
    apply bool_cond_eq
    simp only [eventSlotValidator_eventForDuty]
    simp [Prod.ext_iff]
  have hfilter : (processProposerDuties duties lookup).filter
      (fun e => eventSlotValidator e == (s, v)) =
      (duties.filter (fun d => d.fSlot == s && d.fValidatorIndex == v)).map
        (eventForDuty lookup) := by
    rw [processProposerDuties_eq_map, List.filter_map]
    congr 1
    apply List.filter_congr
    intro d _
    exact hpred d
  obtain ⟨d0, hd0⟩ := List.length_eq_one.1 h
  have hd0mem : d0 ∈ duties.filter (fun d => d.fSlot == s && d.fValidatorIndex == v) := by
    rw [hd0]; exact List.mem_singleton.2 rfl
  have hd0prop := (List.mem_filter.1 hd0mem).2
  simp only [Bool.and_eq_true, beq_iff_eq] at hd0prop
  obtain ⟨hd0s, hd0v⟩ := hd0prop
  rw [hfilter, hd0]
  refine ⟨by simp, ?_, ?_, ?_⟩
  · intro b hb hbv
    simp only [List.map_cons, List.map_nil, eventForDuty, hd0s, hd0v, hb]
    rw [if_pos (by simp [hbv])]
  · intro b hb hbv
    simp only [List.map_cons, List.map_nil, eventForDuty, hd0s, hd0v, hb]
    rw [if_neg (by simp [hbv])]
  · intro hb
    simp only [List.map_cons, List.map_nil, eventForDuty, hd0s, hd0v, hb]

/-- Witness for C4, on the spec's scenario 1: duty `(200, 100)`, block at
slot 200 with proposer 100 and exec block 500. -/
theorem proposer_duty_exactly_one_event_witness :
    (processProposerDuties [⟨200, 100⟩]
        (buildBlocksBySlot [⟨200, 100, some 500⟩])).filter
      (fun e => eventSlotValidator e == (200, 100)) =
      [.proposed 200 100 (some 500)] :=
  (proposer_duty_exactly_one_event [⟨200, 100⟩] [⟨200, 100, some 500⟩] 200 100
    (by decide)).2.1 ⟨200, 100, some 500⟩ (by decide) (by decide)

/-! ### Scheduler: batch cursor advance (`lastBlock = batchEndSlot` on both
the success path and the catch path) -/

def batchEndSlot (initialStart batchSize newest n : Nat) : Nat :=
  min (initialStart + n * batchSize + batchSize) newest

/-- The `try` branch ends with `lastBlock = batchEndSlot; nconf.save()`. -/
def cursorAfterBatchSuccess (initialStart batchSize newest n : Nat) : Nat :=
  batchEndSlot initialStart batchSize newest n

/-- The `catch` branch also ends with `lastBlock = batchEndSlot; nconf.save()`. -/
def cursorAfterBatchError (initialStart batchSize newest n : Nat) : Nat :=
  batchEndSlot initialStart batchSize newest n

def cursorAfterBatch (initialStart batchSize newest n : Nat) (ok : Bool) : Nat :=
  if ok then cursorAfterBatchSuccess initialStart batchSize newest n
  else cursorAfterBatchError initialStart batchSize newest n

/-- `Math.ceil(totalSlots / batchSize)`. -/
def numBatches (initialStart batchSize newest : Nat) : Nat :=
  (newest - initialStart + batchSize - 1) / batchSize

/-- **C5.** After every batch — success or batch-level exception alike — the
persisted cursor equals the batch end `min(S_begin + batchSize, newest)`;
the per-batch cursors are non-decreasing, never drop below the run's starting
cursor, and the final batch persists exactly `newest`, so the persisted
cursor is monotonically non-decreasing across the entire run. -/
theorem cursor_advance_monotone (i B newest : Nat) (hB : 0 < B) (hn : i < newest) :
    (∀ n ok, cursorAfterBatch i B newest n ok = min (i + n * B + B) newest) ∧
    (∀ n ok ok2, cursorAfterBatch i B newest n ok ≤
      cursorAfterBatch i B newest (n + 1) ok2) ∧
    (∀ n ok, i ≤ cursorAfterBatch i B newest n ok) ∧
    (∀ ok, cursorAfterBatch i B newest (numBatches i B newest - 1) ok = newest) := by
  have hval : ∀ n ok, cursorAfterBatch i B newest n ok = min (i + n * B + B) newest := by
    intro n ok
    cases ok <;> rfl
  refine ⟨hval, ?_, ?_, ?_⟩
  · intro n ok ok2
    rw [hval, hval]
    have e : (n + 1) * B = n * B + B := Nat.succ_mul n B
    exact min_le_min (by omega) (Nat.le_refl _)
  · intro n ok
    rw [hval]
    exact Nat.le_min.2 ⟨by omega, by omega⟩
  · intro ok
    rw [hval]
    have key : newest ≤ i + (numBatches i B newest - 1) * B + B := by
      have h1 : 1 ≤ numBatches i B newest := by
        rw [numBatches, Nat.one_le_div_iff hB]
        omega
      obtain ⟨q', hq'⟩ : ∃ q', numBatches i B newest = q' + 1 :=
        ⟨numBatches i B newest - 1, by omega⟩
      rw [hq']
      simp only [Nat.add_sub_cancel]
      have hdm := Nat.div_add_mod (newest - i + B - 1) B
      have hmod := Nat.mod_lt (newest - i + B - 1) hB
      have hx : B * ((newest - i + B - 1) / B) = B * (q' + 1) := by
        rw [numBatches] at hq'
        rw [hq']
      have hexp : B * (q' + 1) = q' * B + B := by ring
      rw [hx, hexp] at hdm
      obtain ⟨y, hy⟩ : ∃ y, q' * B = y := ⟨_, rfl⟩
      obtain ⟨m, hm⟩ : ∃ m, (newest - i + B - 1) % B = m := ⟨_, rfl⟩
      rw [hy] at hdm ⊢
      rw [hm] at hdm hmod
      omega
    exact Nat.min_eq_right key

/-- Witness for C5: starting cursor 100, batch size 100, target 250 — three
batches ending at 200, 250 (the catch path persisting the same values). -/
theorem cursor_advance_monotone_witness :
    cursorAfterBatch 100 100 250 0 true = min (100 + 0 * 100 + 100) 250 ∧
    cursorAfterBatch 100 100 250 0 false ≤ cursorAfterBatch 100 100 250 1 true ∧
    (100 : Nat) ≤ cursorAfterBatch 100 100 250 0 false ∧
    cursorAfterBatch 100 100 250 (numBatches 100 100 250 - 1) false = 250 :=
  ⟨(cursor_advance_monotone 100 100 250 (by decide) (by decide)).1 0 true,
   (cursor_advance_monotone 100 100 250 (by decide) (by decide)).2.1 0 false true,
   (cursor_advance_monotone 100 100 250 (by decide) (by decide)).2.2.1 0 false,
   (cursor_advance_monotone 100 100 250 (by decide) (by decide)).2.2.2 false⟩

/-! ### Stale-node check and its rate limit -/

def NOTIFICATION_RATE_LIMIT_INTERVAL : Int := 30 * 60 * 1000

/-- The stale-node branch of the main loop: given `slotsBehind`, the current
time `now = Date.now()` and the module-level `lastStaleNodeNotification`,
return whether a `NodeStale` notification is sent and the new value of
`lastStaleNodeNotification`. -/
def staleCheck (slotsBehind now lastStaleNodeNotification : Int) : Bool × Int :=
  if slotsBehind > 10 then
    if now - lastStaleNodeNotification ≥ NOTIFICATION_RATE_LIMIT_INTERVAL then
      (true, now)
    else (false, lastStaleNodeNotification)
  else (false, lastStaleNodeNotification)

/-- **C7.** When a poll sees `slotsBehind > 10`, a `NodeStale` notification
is emitted iff at least 30 minutes have elapsed since the last one; on
emission the timestamp is updated to `now` (so a same-lag poll inside the
window emits nothing, and one after the window emits again), and on a
suppressed poll the timestamp is unchanged. -/
theorem stale_notification_rate_limit (sb now last : Int) (h : sb > 10) :
    ((staleCheck sb now last).1 = true ↔
      now - last ≥ NOTIFICATION_RATE_LIMIT_INTERVAL) ∧
    (now - last ≥ NOTIFICATION_RATE_LIMIT_INTERVAL →
      staleCheck sb now last = (true, now)) ∧
    (now - last < NOTIFICATION_RATE_LIMIT_INTERVAL →
      staleCheck sb now last = (false, last)) := by
  unfold staleCheck
  rw [if_pos h]
  by_cases h2 : now - last ≥ NOTIFICATION_RATE_LIMIT_INTERVAL
  · rw [if_pos h2]
    exact ⟨by simp [h2], fun _ => rfl, fun hlt => absurd h2 (by omega)⟩
  · rw [if_neg h2]
    exact ⟨by simp [h2], fun hge => absurd hge h2, fun _ => rfl⟩

/-- Witness for C7, on the spec's scenario 6: lag 20 emits at `t = 2e6` ms
(from the initial timestamp 0); 5 minutes later the same lag emits nothing;
31 minutes later it emits again. -/
theorem stale_notification_rate_limit_witness :
    staleCheck 20 2000000 0 = (true, 2000000) ∧
    staleCheck 20 2300000 2000000 = (false, 2000000) ∧
    staleCheck 20 3860000 2000000 = (true, 3860000) :=
  ⟨(stale_notification_rate_limit 20 2000000 0 (by decide)).2.1 (by decide),
   (stale_notification_rate_limit 20 2300000 2000000 (by decide)).2.2 (by decide),
   (stale_notification_rate_limit 20 3860000 2000000 (by decide)).2.1 (by decide)⟩

/-! ### Withdrawals

JS number arithmetic on the amounts is modelled by exact rationals; at the
concrete inputs below the IEEE-double computation of the code is exact. -/

/-- A row of `getBeaconWithdrawals`: the amount is already converted,
`f_amount = parseInt(withdrawal.amount) / 1e9` — ETH, not gwei. -/
structure WithdrawalRow where
  fSlot : Nat
  fBlockNumber : Nat
  fValidatorIndex : Nat
  fAddress : List Char
  fAmount : ℚ
deriving DecidableEq

def getBeaconWithdrawals (w : World) (mon : List Nat) (fromB toB : Nat) :
    List WithdrawalRow :=
  (List.range' (fromB + 1) (toB - fromB)).flatMap (fun slot =>
    match w.blockAt slot with
    | none => []
    | some b =>
      match b.executionPayload with
      | none => []
      | some payload =>
        payload.withdrawals.filterMap (fun wd =>
          if mon.contains wd.validatorIndex then
            some ⟨slot, payload.blockNumber, wd.validatorIndex, wd.address,
              (wd.amount : ℚ) / 1000000000⟩
          else none))

/-- The per-validator aggregate `batchWithdrawals[validatorIndex]`. -/
structure WAgg where
  label : List Char
  withdrawals : List (ℚ × Nat)
  total : ℚ
deriving DecidableEq

/-- One iteration of the withdrawal loop: push `{amount, slot}` and add the
amount to the running total (creating the aggregate on first sight). -/
def addWithdrawal (labelOf : Nat → List Char) :
    List (Nat × WAgg) → WithdrawalRow → List (Nat × WAgg)
  | [], r => [(r.fValidatorIndex,
      ⟨labelOf r.fValidatorIndex, [(r.fAmount, r.fSlot)], r.fAmount⟩)]
  | (k, agg) :: rest, r =>
    if k == r.fValidatorIndex then
      (k, ⟨agg.label, agg.withdrawals ++ [(r.fAmount, r.fSlot)],
        agg.total + r.fAmount⟩) :: rest
    else (k, agg) :: addWithdrawal labelOf rest r

def accumWithdrawals (labelOf : Nat → List Char) (rows : List WithdrawalRow) :
    List (Nat × WAgg) :=
  rows.foldl (addWithdrawal labelOf) []

/-- The per-label aggregate `withdrawalsByLabel[label]`:
`validators` entries are `{index, withdrawals, amount}`. -/
structure LabelAgg where
  validators : List (Nat × List (ℚ × Nat) × ℚ)
  totalAmount : ℚ
  withdrawalCount : Nat
deriving DecidableEq

def addLabelEntry : List (List Char × LabelAgg) → Nat × WAgg →
    List (List Char × LabelAgg)
  | [], (vi, agg) => [(agg.label,
      ⟨[(vi, agg.withdrawals, agg.total)], agg.total, agg.withdrawals.length⟩)]
  | (lab, lagg) :: rest, (vi, agg) =>
    if lab == agg.label then
      (lab, ⟨lagg.validators ++ [(vi, agg.withdrawals, agg.total)],
        lagg.totalAmount + agg.total,
        lagg.withdrawalCount + agg.withdrawals.length⟩) :: rest
    else (lab, lagg) :: addLabelEntry rest (vi, agg)

def groupWithdrawalsByLabel (aggs : List (Nat × WAgg)) :
    List (List Char × LabelAgg) :=
  aggs.foldl addLabelEntry []

theorem addWithdrawal_inv (labelOf : Nat → List Char) (r : WithdrawalRow) :
    ∀ acc, (∀ vi agg, (vi, agg) ∈ acc →
        agg.total = (agg.withdrawals.map Prod.fst).sum) →
      ∀ vi agg, (vi, agg) ∈ addWithdrawal labelOf acc r →
        agg.total = (agg.withdrawals.map Prod.fst).sum := by
  intro acc
  induction acc with
  | nil =>
    intro _ vi agg hmem
    simp only [addWithdrawal, List.mem_singleton, Prod.mk.injEq] at hmem
    rw [hmem.2]
    simp
  | cons p rest ih =>
    obtain ⟨k, a⟩ := p
    intro hacc vi agg hmem
    simp only [addWithdrawal] at hmem
    split at hmem
    · rcases List.mem_cons.1 hmem with heq | hmem'
      · rw [Prod.mk.injEq] at heq
        rw [heq.2]
        have ha := hacc k a (List.mem_cons_self _ _)
        simp [ha]
      · exact hacc vi agg (List.mem_cons_of_mem _ hmem')
    · rcases List.mem_cons.1 hmem with heq | hmem'
      · rw [Prod.mk.injEq] at heq
        rw [heq.2]
        exact hacc k a (List.mem_cons_self _ _)
      · exact ih (fun vi' agg' h => hacc vi' agg' (List.mem_cons_of_mem _ h)) vi agg hmem'

theorem accumWithdrawals_inv (labelOf : Nat → List Char) (rows : List WithdrawalRow) :
    ∀ vi agg, (vi, agg) ∈ accumWithdrawals labelOf rows →
      agg.total = (agg.withdrawals.map Prod.fst).sum := by
  have main : ∀ (rows : List WithdrawalRow) (acc : List (Nat × WAgg)),
      (∀ vi agg, (vi, agg) ∈ acc → agg.total = (agg.withdrawals.map Prod.fst).sum) →
      ∀ vi agg, (vi, agg) ∈ rows.foldl (addWithdrawal labelOf) acc →
        agg.total = (agg.withdrawals.map Prod.fst).sum := by
    intro rows
    induction rows with
    | nil => intro acc hacc; exact hacc
    | cons r rest ih =>
      intro acc hacc
      exact ih (addWithdrawal labelOf acc r) (addWithdrawal_inv labelOf r acc hacc)
  exact main rows [] (by simp)

/-- The property carried through the label grouping: the label total is the
sum of its validators' amounts, and each carried validator entry satisfies
the given per-entry predicate. -/
theorem addLabelEntry_inv (P : Nat × List (ℚ × Nat) × ℚ → Prop) (e : Nat × WAgg)
    (hP : P (e.1, e.2.withdrawals, e.2.total)) :
    ∀ acc, (∀ lab lagg, (lab, lagg) ∈ acc →
        lagg.totalAmount = (lagg.validators.map (fun x => x.2.2)).sum ∧
          ∀ x ∈ lagg.validators, P x) →
      ∀ lab lagg, (lab, lagg) ∈ addLabelEntry acc e →
        lagg.totalAmount = (lagg.validators.map (fun x => x.2.2)).sum ∧
          ∀ x ∈ lagg.validators, P x := by
  obtain ⟨vi, agg⟩ := e
  intro acc
  induction acc with
  | nil =>
    intro _ lab lagg hmem
    simp only [addLabelEntry, List.mem_singleton, Prod.mk.injEq] at hmem
    rw [hmem.2]
    refine ⟨by simp, ?_⟩
    intro x hx
    rw [List.mem_singleton] at hx
    rw [hx]
    exact hP
  | cons p rest ih =>
    obtain ⟨lab0, lagg0⟩ := p
    intro hacc lab lagg hmem
    simp only [addLabelEntry] at hmem
    split at hmem
    · rcases List.mem_cons.1 hmem with heq | hmem'
      · rw [Prod.mk.injEq] at heq
        obtain ⟨h0sum, h0P⟩ := hacc lab0 lagg0 (List.mem_cons_self _ _)
        rw [heq.2]
        refine ⟨by simp [h0sum], ?_⟩
        intro x hx
        rcases List.mem_append.1 hx with hx' | hx'
        · exact h0P x hx'
        · rw [List.mem_singleton] at hx'
          rw [hx']
          exact hP
      · exact hacc lab lagg (List.mem_cons_of_mem _ hmem')
    · rcases List.mem_cons.1 hmem with heq | hmem'
      · rw [Prod.mk.injEq] at heq
        rw [heq.2]
        exact hacc lab0 lagg0 (List.mem_cons_self _ _)
      · exact ih (fun lab' lagg' h => hacc lab' lagg' (List.mem_cons_of_mem _ h))
          lab lagg hmem'

/-- **C8 (amended).** Withdrawal amounts are converted to ETH — the gwei
amount divided by 10⁹ — already inside `getBeaconWithdrawals`; the
per-validator total is the sum of those ETH amounts, and each per-label
`totalAmount` is the sum of its validators' totals, each of which is the sum
of that validator's entry amounts. No integer-gwei total exists anywhere. -/
theorem withdrawal_eth_totals_amended (w : World) (mon : List Nat) (fromB toB : Nat)
    (labelOf : Nat → List Char) :
    (∀ r ∈ getBeaconWithdrawals w mon fromB toB, ∃ b payload wd,
        w.blockAt r.fSlot = some b ∧ b.executionPayload = some payload ∧
        wd ∈ payload.withdrawals ∧ r.fAmount = (wd.amount : ℚ) / 1000000000) ∧
    (∀ vi agg, (vi, agg) ∈ accumWithdrawals labelOf (getBeaconWithdrawals w mon fromB toB) →
        agg.total = (agg.withdrawals.map Prod.fst).sum) ∧
    (∀ lab lagg, (lab, lagg) ∈ groupWithdrawalsByLabel
        (accumWithdrawals labelOf (getBeaconWithdrawals w mon fromB toB)) →
        lagg.totalAmount = (lagg.validators.map (fun x => x.2.2)).sum ∧
          ∀ x ∈ lagg.validators, x.2.2 = (x.2.1.map Prod.fst).sum) := by
  refine ⟨?_, accumWithdrawals_inv labelOf _, ?_⟩
  · intro r hr
    simp only [getBeaconWithdrawals, List.mem_flatMap, List.mem_range'_1] at hr
    obtain ⟨slot, hslot, hrs⟩ := hr
    cases hb : w.blockAt slot with
    | none =>
      rw [hb] at hrs
      exact absurd hrs (List.not_mem_nil r)
    | some b =>
      rw [hb] at hrs
      dsimp only at hrs
      cases hpl : b.executionPayload with
      | none =>
        rw [hpl] at hrs
        exact absurd hrs (List.not_mem_nil r)
      | some payload =>
        rw [hpl] at hrs
        dsimp only at hrs
        rw [List.mem_filterMap] at hrs
        obtain ⟨wd, hwd, hmk⟩ := hrs
        split at hmk
        · injection hmk with hmk
          subst hmk
          exact ⟨b, payload, wd, hb, hpl, hwd, rfl⟩
        · exact absurd hmk (by simp)
  · have main : ∀ (aggs : List (Nat × WAgg)) (acc : List (List Char × LabelAgg)),
        (∀ vi agg, (vi, agg) ∈ aggs → agg.total = (agg.withdrawals.map Prod.fst).sum) →
        (∀ lab lagg, (lab, lagg) ∈ acc →
          lagg.totalAmount = (lagg.validators.map (fun x => x.2.2)).sum ∧
            ∀ x ∈ lagg.validators, x.2.2 = (x.2.1.map Prod.fst).sum) →
        ∀ lab lagg, (lab, lagg) ∈ aggs.foldl addLabelEntry acc →
          lagg.totalAmount = (lagg.validators.map (fun x => x.2.2)).sum ∧
            ∀ x ∈ lagg.validators, x.2.2 = (x.2.1.map Prod.fst).sum := by
      intro aggs
      induction aggs with
      | nil => intro acc _ hacc; exact hacc
      | cons e rest ih =>
        intro acc haggs hacc
        refine ih (addLabelEntry acc e) (fun vi agg h => haggs vi agg
          (List.mem_cons_of_mem _ h)) ?_
        exact addLabelEntry_inv (fun x => x.2.2 = (x.2.1.map Prod.fst).sum) e
          (haggs e.1 e.2 (by simp)) acc hacc
    exact main _ [] (accumWithdrawals_inv labelOf _) (by simp)

/-- A block at slot 1 paying validator 7 a withdrawal of 2·10⁹ gwei. -/
def exWithdrawalWorld : World :=
  ⟨[(1, ⟨1, 90, [], some ⟨500, [⟨7, [], 2000000000⟩]⟩⟩)], []⟩

/-- **C8 (counterexample).** The entry produced for a 2·10⁹ gwei withdrawal
carries amount 2 (ETH), not 2·10⁹: amounts are not in gwei, and the
conversion to ETH happens in the fetch layer, not at the notifier boundary. -/
theorem withdrawal_units_counterexample :
    getBeaconWithdrawals exWithdrawalWorld [7] 0 1 = [⟨1, 500, 7, [], 2⟩] ∧
    (2 : ℚ) ≠ 2000000000 := by
  constructor
  · simp only [getBeaconWithdrawals, exWithdrawalWorld, World.blockAt]
    norm_num [List.range', List.find?, List.filterMap]
  · norm_num

/-- Witness for C8's amended theorem at `exWithdrawalWorld` (label lookup
constantly "L"): the single aggregate totals 2 ETH = the sum of its one
entry. -/
theorem withdrawal_eth_totals_amended_witness :
    ∀ vi agg, (vi, agg) ∈ accumWithdrawals (fun _ => ['L'])
        (getBeaconWithdrawals exWithdrawalWorld [7] 0 1) →
      agg.total = (agg.withdrawals.map Prod.fst).sum :=
  (withdrawal_eth_totals_amended exWithdrawalWorld [7] 0 1 (fun _ => ['L'])).2.1

/-! ### Cache (`cache.js`, `LighthouseCache`)

The block store; the committee store is identical in shape. The deployed
instance uses `maxSize = 2000`, `ttl = 1800000` ms. -/

structure CacheEntry where
  data : Option Block
  timestamp : Int
deriving DecidableEq

structure CacheState where
  entries : List (Nat × CacheEntry)
  maxSize : Nat
  ttl : Int
  hits : Nat
  misses : Nat
deriving DecidableEq

/-- `Map.prototype.get` over entries kept in insertion order. -/
def lookupEntry (l : List (Nat × CacheEntry)) (k : Nat) : Option CacheEntry :=
  (l.find? (fun p => p.1 == k)).map (·.2)

/-- `hasBlock(slot)` — a pure `Map.has`, no TTL check and no stats. -/
def hasBlock (c : CacheState) (slot : Nat) : Bool :=
  (lookupEntry c.entries slot).isSome

/-- `getBlock(slot)`: a present, fresh entry is a hit returning its data
(possibly the `null` tombstone); anything else records a miss and returns
`null`. -/
def getBlock (c : CacheState) (slot : Nat) (now : Int) : Option Block × CacheState :=
  match lookupEntry c.entries slot with
  | some e =>
    if now - e.timestamp < c.ttl then (e.data, { c with hits := c.hits + 1 })
    else (none, { c with misses := c.misses + 1 })
  | none => (none, { c with misses := c.misses + 1 })

/-- `Map.prototype.set`: overwrite in place, else append. -/
def mapSet : List (Nat × CacheEntry) → Nat → CacheEntry → List (Nat × CacheEntry)
  | [], k, v => [(k, v)]
  | (k', v') :: rest, k, v =>
    if k' == k then (k, v) :: rest else (k', v') :: mapSet rest k v

/-- `_enforceSize`: when `size >= maxSize`, delete the first
`Math.floor(maxSize * 0.1)` keys in insertion order. -/
def enforceSize (l : List (Nat × CacheEntry)) (maxSize : Nat) : List (Nat × CacheEntry) :=
  if l.length ≥ maxSize then l.drop (maxSize / 10) else l

/-- `setBlock(slot, blockData)`: enforce the size bound, then set. -/
def setBlock (c : CacheState) (slot : Nat) (blockData : Option Block) (now : Int) :
    CacheState :=
  { c with entries := mapSet (enforceSize c.entries c.maxSize) slot ⟨blockData, now⟩ }

/-- The branch `getCachedBlock` takes before any HTTP work: a cache hit via
`hasBlock` returns `getBlock`'s value with no request; otherwise the miss is
recorded and a fetch is issued. -/
inductive FetchOutcome
  | served (value : Option Block)
  | fetch
deriving DecidableEq

def getCachedBlockDecision (c : CacheState) (slot : Nat) (now : Int) :
    FetchOutcome × CacheState :=
  if hasBlock c slot then
    (FetchOutcome.served (getBlock c slot now).1, (getBlock c slot now).2)
  else
    (FetchOutcome.fetch, (getBlock c slot now).2)

theorem beq_false_of_ne (a b : Nat) (h : a ≠ b) : (a == b) = false := by
  rw [beq_eq_false_iff_ne]
  exact h

theorem mapSet_lookup_self (k : Nat) (v : CacheEntry) :
    ∀ l, lookupEntry (mapSet l k v) k = some v := by
  intro l
  induction l with
  | nil => simp [mapSet, lookupEntry]
  | cons p rest ih =>
    obtain ⟨k', v'⟩ := p
    simp only [mapSet]
    split
    · simp [lookupEntry]
    · rename_i hne
      have hf : (k' == k) = false := by simpa using hne
      simp only [lookupEntry, List.find?, hf] at ih ⊢
      exact ih

theorem mapSet_lookup_other (k k' : Nat) (v : CacheEntry) (hne : k' ≠ k) :
    ∀ l, lookupEntry (mapSet l k v) k' = lookupEntry l k' := by
  have hkk : (k == k') = false := beq_false_of_ne k k' (fun h => hne h.symm)
  intro l
  induction l with
  | nil => simp [mapSet, lookupEntry, List.find?, hkk]
  | cons p rest ih =>
    obtain ⟨k0, v0⟩ := p
    simp only [mapSet]
    split
    · rename_i heq
      rw [beq_iff_eq] at heq
      subst heq
      have h0 : (k0 == k') = false := beq_false_of_ne k0 k' (fun h => hne h.symm)
      simp only [lookupEntry, List.find?, hkk, h0]
    · simp only [lookupEntry, List.find?] at ih ⊢
      cases hk0 : (k0 == k') with
      | true => rfl
      | false => exact ih

theorem lookup_of_mem_nodup (l : List (Nat × CacheEntry)) (p : Nat × CacheEntry)
    (hnd : (l.map Prod.fst).Nodup) (hmem : p ∈ l) :
    lookupEntry l p.1 = some p.2 := by
  induction l with
  | nil => exact absurd hmem (List.not_mem_nil _)
  | cons q rest ih =>
    obtain ⟨k0, e0⟩ := q
    simp only [List.map_cons, List.nodup_cons] at hnd
    rcases List.mem_cons.1 hmem with heq | hmem'
    · subst heq
      simp [lookupEntry, List.find?]
    · have hk : (k0 == p.1) = false := by
        apply beq_false_of_ne
        intro h
        exact hnd.1 (List.mem_map.2 ⟨p, hmem', h.symm⟩)
      simp only [lookupEntry, List.find?, hk]
      exact ih hnd.2 hmem'

theorem lookup_eq_none_of_not_mem (l : List (Nat × CacheEntry)) (k : Nat)
    (h : k ∉ l.map Prod.fst) : lookupEntry l k = none := by
  induction l with
  | nil => rfl
  | cons q rest ih =>
    obtain ⟨k0, e0⟩ := q
    simp only [List.map_cons, List.mem_cons] at h
    push_neg at h
    have hk : (k0 == k) = false := beq_false_of_ne k0 k (fun hh => h.1 hh.symm)
    simp only [lookupEntry, List.find?, hk]
    exact ih h.2

/-- **C9.** On `setBlock` with the store at or above `max_size`, the oldest
`⌊max_size/10⌋` entries by insertion order are evicted (their keys no longer
resolve, unless re-written as the new key), all younger entries survive
unchanged, and the written key maps to the new entry; with the store below
`max_size`, no entry is evicted. -/
theorem cache_eviction_policy (c : CacheState) (slot : Nat) (bd : Option Block)
    (now : Int) (hnd : (c.entries.map Prod.fst).Nodup) :
    (c.entries.length ≥ c.maxSize →
      (∀ p ∈ c.entries.take (c.maxSize / 10), p.1 ≠ slot →
        lookupEntry (setBlock c slot bd now).entries p.1 = none) ∧
      (∀ p ∈ c.entries.drop (c.maxSize / 10), p.1 ≠ slot →
        lookupEntry (setBlock c slot bd now).entries p.1 = some p.2)) ∧
    (c.entries.length < c.maxSize →
      ∀ p ∈ c.entries, p.1 ≠ slot →
        lookupEntry (setBlock c slot bd now).entries p.1 = some p.2) ∧
    lookupEntry (setBlock c slot bd now).entries slot = some ⟨bd, now⟩ := by
  refine ⟨?_, ?_, ?_⟩
  · intro hge
    have hent : (setBlock c slot bd now).entries =
        mapSet (c.entries.drop (c.maxSize / 10)) slot ⟨bd, now⟩ := by
      simp only [setBlock, enforceSize]
      rw [if_pos hge]
    have hnd' : ((c.entries.take (c.maxSize / 10)).map Prod.fst ++
        (c.entries.drop (c.maxSize / 10)).map Prod.fst).Nodup := by
      rw [← List.map_append, List.take_append_drop]
      exact hnd
    constructor
    · intro p hp hpne
      rw [hent, mapSet_lookup_other slot p.1 _ hpne]
      apply lookup_eq_none_of_not_mem
      have hdis := (List.nodup_append.1 hnd').2.2
      exact fun hmem => hdis (List.mem_map.2 ⟨p, hp, rfl⟩) hmem
    · intro p hp hpne
      rw [hent, mapSet_lookup_other slot p.1 _ hpne]
      exact lookup_of_mem_nodup _ p (List.nodup_append.1 hnd').2.1 hp
  · intro hlt p hp hpne
    have hent : (setBlock c slot bd now).entries = mapSet c.entries slot ⟨bd, now⟩ := by
      have hcond : ¬ c.entries.length ≥ c.maxSize := by omega
      simp only [setBlock, enforceSize]
      rw [if_neg hcond]
    rw [hent, mapSet_lookup_other slot p.1 _ hpne]
    exact lookup_of_mem_nodup _ p hnd hp
  · exact mapSet_lookup_self slot ⟨bd, now⟩ (enforceSize c.entries c.maxSize)

/-- A ten-entry cache at its size bound (`maxSize = 10`, so one entry — the
oldest tenth — is evicted on the next `setBlock`). -/
def exFullCache : CacheState :=
  ⟨(List.range 10).map (fun i => (i, ⟨none, 0⟩)), 10, 1800000, 0, 0⟩

/-- Witness for C9: setting slot 42 on the full cache evicts the oldest key
0, keeps key 3, and stores the new entry. -/
theorem cache_eviction_policy_witness :
    lookupEntry (setBlock exFullCache 42 none 5).entries 0 = none ∧
    lookupEntry (setBlock exFullCache 42 none 5).entries 3 = some ⟨none, 0⟩ ∧
    lookupEntry (setBlock exFullCache 42 none 5).entries 42 = some ⟨none, 5⟩ :=
  ⟨((cache_eviction_policy exFullCache 42 none 5 (by decide)).1 (by decide)).1
      (0, ⟨none, 0⟩) (by decide) (by decide),
   ((cache_eviction_policy exFullCache 42 none 5 (by decide)).1 (by decide)).2
      (3, ⟨none, 0⟩) (by decide) (by decide),
   (cache_eviction_policy exFullCache 42 none 5 (by decide)).2.2⟩

/-- **C10.** An entry whose age has reached `ttl` but which the periodic
sweep has not yet removed: `hasBlock` still answers `true`, `getBlock`
records a miss and returns `null`, so `getCachedBlock` serves `null` from
the cache without issuing any HTTP request — callers observe the slot as a
missed slot even when a block exists for it. -/
theorem expired_entry_served_as_miss (c : CacheState) (slot : Nat) (now : Int)
    (e : CacheEntry) (hfound : lookupEntry c.entries slot = some e)
    (hexpired : now - e.timestamp ≥ c.ttl) :
    hasBlock c slot = true ∧
    (getBlock c slot now).1 = none ∧
    (getBlock c slot now).2.misses = c.misses + 1 ∧
    getCachedBlockDecision c slot now =
      (FetchOutcome.served none, (getBlock c slot now).2) := by
  have hhas : hasBlock c slot = true := by
    rw [hasBlock, hfound]
    rfl
  have hget : getBlock c slot now = (none, { c with misses := c.misses + 1 }) := by
    unfold getBlock
    rw [hfound]
    dsimp only
    rw [if_neg (by omega)]
  refine ⟨hhas, by rw [hget], by rw [hget], ?_⟩
  unfold getCachedBlockDecision
  rw [if_pos hhas, hget]

def exStaleBlock : Block := ⟨7, 1, [], none⟩

/-- A cache holding a 30-minute-old block entry for slot 5 (ttl 1800000 ms,
the deployed value). -/
def exStaleCache : CacheState := ⟨[(5, ⟨some exStaleBlock, 0⟩)], 2000, 1800000, 0, 0⟩

/-- Witness for C10 at the deployed ttl: the just-expired entry for slot 5
is reported present, served as `null`, and no fetch is issued. -/
theorem expired_entry_served_as_miss_witness :
    hasBlock exStaleCache 5 = true ∧
    (getBlock exStaleCache 5 1800000).1 = none ∧
    (getBlock exStaleCache 5 1800000).2.misses = exStaleCache.misses + 1 ∧
    getCachedBlockDecision exStaleCache 5 1800000 =
      (FetchOutcome.served none, (getBlock exStaleCache 5 1800000).2) :=
  expired_entry_served_as_miss exStaleCache 5 1800000 ⟨some exStaleBlock, 0⟩
    (by decide) (by decide)

end EthNotifier
